import Mathlib

/-!
Verification of the `filesdir-check` tool (`filesdir_check.py`).

The script scans a portage-style tree `category/package` for files under each
package's `files` directory that are referenced by no ebuild of the package.
This file gives a shallow embedding of the script's pure logic:

* `_process_ebuild` (variable derivation and text normalization) becomes
  `processEbuild`, with the file read abstracted: the caller passes the
  decoded recipe text, as the spec's Normalizer contract does.
* `_list_files` becomes `listFiles` over an explicit directory-tree type.
* `check_category_package` / `check_category` become `checkCategoryPackage`
  and `checkCategory`; the external portage index collaborator is modelled as
  an explicit list of category/package pairs.
* the argument-resolution loop of `_parse_command_line` becomes
  `resolveArgument`.

Python regular-expression idioms used by the script are embedded by their
literal meaning: `re.search(re.escape(x), s)` is literal substring search
(`containsSub`), and anchored patterns such as `\.ebuild$` and `-r[0-9]+$`
are suffix tests, including Python's rule that `$` also matches just before a
trailing newline character.
-/

namespace FilesdirCheck

/-! ## Definitions -/

/-- Literal substring search, modelling `_grep`'s
`re.compile(re.escape(pat)).search(s)` (source lines 91-97): escaping makes
the compiled expression match exactly the literal pattern text, so the search
succeeds iff `pat` occurs as a contiguous sublist. -/
def containsSub (pat : List Char) : List Char → Bool
  | [] => pat.isEmpty
  | c :: t => pat.isPrefixOf (c :: t) || containsSub pat t

/-- Characters of the recipe-file suffix, the literal `.ebuild` appearing in
`_list_ebuilds` and `_process_ebuild`. -/
def sufEb : List Char := ".ebuild".data

/-- Suffix test modelling Python's `re.search(pat ++ "$", s)` for a literal
pattern: `$` matches at the very end of the string, or just before a newline
that is the final character. -/
def endsWithDollar (pat l : List Char) : Bool :=
  pat.isSuffixOf l || (pat ++ ['\n']).isSuffixOf l

/-- Source `_list_ebuilds` (lines 99-103): filter the package directory
listing by `_grep("\.ebuild$", ...)`. -/
def listEbuilds (names : List String) : List String :=
  names.filter (fun n => endsWithDollar sufEb n.data)

/-- Source line 168, `pf = re.sub("\.ebuild$", "", ebuild)`: remove one
occurrence of `.ebuild` at the end (or just before a final newline); when the
pattern does not match the name is returned unchanged. -/
def stripDotEbuild (l : List Char) : List Char :=
  if sufEb.isSuffixOf l then l.take (l.length - sufEb.length)
  else if (sufEb ++ ['\n']).isSuffixOf l then
    l.take (l.length - (sufEb.length + 1)) ++ ['\n']
  else l

/-- Source line 169, `pvr = re.sub("^" + re.escape(pn) + "-", "", pf)`: strip
one leading occurrence of the literal pattern if present, else return the
list unchanged. -/
def stripLead (pre l : List Char) : List Char :=
  if pre.isPrefixOf l then l.drop pre.length else l

/-- Core of the anchored pattern `-r[0-9]+$`: when
`l = t ++ '-' :: 'r' :: ds` with `ds` a non-empty run of digits reaching the
end, return `some t`. Such a split is unique because `ds` contains no dash,
so this is exactly the (leftmost) match `re` finds. -/
def revSplit (l : List Char) : Option (List Char) :=
  let r := l.reverse
  let ds := r.takeWhile (fun c => c.isDigit)
  if ds.isEmpty then none
  else
    match r.drop ds.length with
    | 'r' :: '-' :: rest => some rest.reverse
    | _ => none

/-- Source line 170, `pv = re.sub("-r[0-9]+$", "", pvr)`: drop a trailing
revision suffix; Python's `$` also matches just before a final newline, in
which case the newline is kept. -/
def stripRevision (l : List Char) : List Char :=
  if l.getLast? = some '\n' then
    match revSplit l.dropLast with
    | some t => t ++ ['\n']
    | none => l
  else
    match revSplit l with
    | some t => t
    | none => l

/-- Derived value PF (source line 168). -/
def pfOf (eb : String) : String := ⟨stripDotEbuild eb.data⟩

/-- Derived value PVR (source line 169). -/
def pvrOf (pn eb : String) : String := ⟨stripLead (pn.data ++ ['-']) (pfOf eb).data⟩

/-- Derived value PV (source line 170). -/
def pvOf (pn eb : String) : String := ⟨stripRevision (pvrOf pn eb).data⟩

/-- Derived value P (source line 171). -/
def pOf (pn eb : String) : String := pn ++ "-" ++ pvOf pn eb

/-- Python `str.replace` on character lists for a non-empty pattern: scan left
to right; at a match, emit the replacement and skip the matched characters
(the `Nat` argument counts characters still to skip); the replacement text is
never rescanned. -/
def replAux (pat rep : List Char) : Nat → List Char → List Char
  | _, [] => []
  | Nat.succ k, _ :: t => replAux pat rep k t
  | 0, c :: t =>
    if pat.isPrefixOf (c :: t) && !pat.isEmpty then
      rep ++ replAux pat rep (pat.length - 1) t
    else c :: replAux pat rep 0 t

/-- Python `s.replace(old, new)` as used by the script (the script only ever
passes non-empty `old` patterns). -/
def pyReplace (s old new : String) : String := ⟨replAux old.data new.data 0 s.data⟩

/-- Source `_process_ebuild` (lines 163-193) with the UTF-8 file read
abstracted into the `text` argument: derive PN/PF/PVR/PV/P from the package
base name and recipe file name, remove all double quotes, then substitute the
braced and unbraced form of each variable in the source's order. -/
def processEbuild (pn eb text : String) : String :=
  let pf := pfOf eb
  let pvr := pvrOf pn eb
  let pv := pvOf pn eb
  let p := pn ++ "-" ++ pv
  let t0 := pyReplace text "\x22" ""
  let t1 := pyReplace t0 "$\x7bPN\x7d" pn
  let t2 := pyReplace t1 "$PN" pn
  let t3 := pyReplace t2 "$\x7bPF\x7d" pf
  let t4 := pyReplace t3 "$PF" pf
  let t5 := pyReplace t4 "$\x7bPVR\x7d" pvr
  let t6 := pyReplace t5 "$PVR" pvr
  let t7 := pyReplace t6 "$\x7bPV\x7d" pv
  let t8 := pyReplace t7 "$PV" pv
  let t9 := pyReplace t8 "$\x7bP\x7d" p
  pyReplace t9 "$P" p

/-- Normalization pipeline written the way the spec words it (section 3): the
raw text with all double quotes removed, then for each variable in the fixed
order PN, PF, PVR, PV, P, first the braced and then the unbraced form
replaced by the derived literal value. Stated only to be compared with
`processEbuild`. -/
def specNormalize (pn pf pvr pv p text : String) : String :=
  [("PN", pn), ("PF", pf), ("PVR", pvr), ("PV", pv), ("P", p)].foldl
    (fun acc nv =>
      pyReplace (pyReplace acc ("$\x7b" ++ nv.1 ++ "\x7d") nv.2) ("$" ++ nv.1) nv.2)
    (pyReplace text "\x22" "")

/-- Directory-tree entry as `os.listdir` plus `os.path.isdir` classify it: a
non-directory leaf (content kept for recipe files; never read under `files`)
or a subdirectory with its own listing, in listing order. -/
inductive FSEntry where
  | file (name : String) (content : String) : FSEntry
  | dir (name : String) (entries : List FSEntry) : FSEntry

/-- Source `_list_files` (lines 105-117) applied to the entries of an
existing directory: a leaf contributes its name; each deeper result of a
subdirectory is reported as `os.path.join(item, deeper_item)`, all in listing
order. -/
def listFiles : List FSEntry → List String
  | [] => []
  | FSEntry.file n _ :: rest => n :: listFiles rest
  | FSEntry.dir n sub :: rest =>
    ((listFiles sub).map (fun d => n ++ "/" ++ d)) ++ listFiles rest

/-- Leaf paths of a directory tree, as the spec words it: exactly the
non-directory entries reachable under the root, each addressed by its path
relative to the root with every intermediate directory name as a path
segment. Stated only to be compared with `listFiles`. -/
inductive IsLeafPath : List FSEntry → String → Prop where
  | file {es : List FSEntry} {n c : String} (h : FSEntry.file n c ∈ es) :
      IsLeafPath es n
  | dir {es : List FSEntry} {n d : String} {sub : List FSEntry}
      (h : FSEntry.dir n sub ∈ es) (hd : IsLeafPath sub d) :
      IsLeafPath es (n ++ "/" ++ d)

/-- Observable state of one package directory during a scan: the entries of
its `files` subdirectory (`none` when `files` is missing or not a directory,
the test at source line 64), the `os.listdir` listing of the package
directory itself, and the decoded text of each file in it (only consulted for
recipe files). -/
structure Package where
  filesdir : Option (List FSEntry)
  dirListing : List String
  fileContent : String → String

/-- Source line 167, `os.path.basename(category_package)`: the part of the
path after the last slash. -/
def basename (s : String) : String :=
  ⟨(s.data.reverse.takeWhile (fun c => c != '/')).reverse⟩

/-- Normalized texts of all recipes of the package, in listing order (source
lines 69-71). -/
def normalizedTexts (cp : String) (pkg : Package) : List String :=
  (listEbuilds pkg.dirListing).map
    (fun e => processEbuild (basename cp) e (pkg.fileContent e))

/-- Reported path of an offending file, source lines 84-85:
`os.path.join(base_directory, category_package, "files", file)` for relative
path components. -/
def qualify (base cp f : String) : String := base ++ "/" ++ cp ++ "/files/" ++ f

/-- Source `check_category_package` (lines 54-89): a package without a `files`
directory contributes nothing; otherwise every enumerated file matched by no
normalized recipe text (`_grep(re.escape(file), ...)`, line 78) is reported,
in enumeration order, qualified with the base directory. -/
def checkCategoryPackage (base cp : String) (pkg : Package) : List String :=
  match pkg.filesdir with
  | none => []
  | some es =>
    ((listFiles es).filter
        (fun f => (normalizedTexts cp pkg).all (fun t => !containsSub f.data t.data))).map
      (fun f => qualify base cp f)

/-- Source `check_category` (lines 39-52): the category's packages, as
enumerated by the external portage index collaborator (out of scope per the
spec, hence an explicit argument), are checked in order and their results
concatenated. -/
def checkCategory (base : String) (pkgs : List (String × Package)) : List String :=
  pkgs.flatMap (fun p => checkCategoryPackage base p.1 p.2)

/-- Two package states that present the same observations to the scan: the
same `files` tree, the same directory listing, and the same content for every
recipe file. Contents of non-recipe files are never read, so they may
differ. -/
def obsEq (p q : Package) : Prop :=
  p.filesdir = q.filesdir ∧ p.dirListing = q.dirListing ∧
    ∀ e ∈ listEbuilds p.dirListing, p.fileContent e = q.fileContent e

/-- Source argument-resolution loop of `_parse_command_line` (lines 145-157),
modelled for arguments free of regular-expression metacharacters (the script
interpolates the raw argument into a pattern): an exact category match or
exact category/package match resolves to the argument itself; otherwise, when
`"/" ++ arg` occurs inside some indexed pair (`_grep("/" + argument, ...)`,
line 154), the argument expands to the pairs ending in `"/" ++ arg`
(line 155), a possibly empty list; otherwise `none`, modelling the `sys.exit`
usage error at line 157. -/
def resolveArgument (cats cps : List String) (arg : String) : Option (List String) :=
  if arg ∈ cats then some [arg]
  else if arg ∈ cps then some [arg]
  else if cps.any (fun cp => containsSub ("/" ++ arg).data cp.data) then
    some (cps.filter (fun cp => endsWithDollar ("/" ++ arg).data cp.data))
  else none

/-- Concrete package used to instantiate the matcher claim. -/
def pkgW1 : Package :=
  { filesdir := some [FSEntry.file "foo.patch" ""],
    dirListing := ["foo-1.0.ebuild"],
    fileContent := fun _ => "foo-1.0.patch" }

/-- Concrete package with no `files` directory. -/
def pkgW4 : Package :=
  { filesdir := none, dirListing := ["a-1.0.ebuild"], fileContent := fun _ => "x" }

/-- Concrete package for one scan invocation. -/
def pkgW8a : Package :=
  { filesdir := some [FSEntry.file "f.txt" ""],
    dirListing := ["a-1.0.ebuild", "README"],
    fileContent := fun _ => "f.txt" }

/-- Same tree observations as `pkgW8a`; only the content of the non-recipe
file `README` differs. -/
def pkgW8b : Package :=
  { filesdir := some [FSEntry.file "f.txt" ""],
    dirListing := ["a-1.0.ebuild", "README"],
    fileContent := fun e => if e = "README" then "changed" else "f.txt" }

/-- Concrete package with auxiliary files but no recipe files. -/
def pkgW9 : Package :=
  { filesdir := some [FSEntry.file "f.txt" "", FSEntry.dir "sub" [FSEntry.file "g.txt" ""]],
    dirListing := ["README"], fileContent := fun _ => "" }

example : pfOf "vte-0.1.2-r3.ebuild" = "vte-0.1.2-r3" := by decide
example : pvrOf "vte" "vte-0.1.2-r3.ebuild" = "0.1.2-r3" := by decide
example : pvOf "vte" "vte-0.1.2-r3.ebuild" = "0.1.2" := by decide
example : processEbuild "vte" "vte-0.1.2-r3.ebuild" "src/$P.tar \x22$\x7bPN\x7d.patch\x22"
    = "src/vte-0.1.2.tar vte.patch" := by decide
example : containsSub "ab".data "xxabz".data = true := by decide
example : containsSub "ab".data "xaxbz".data = false := by decide
example : listFiles [FSEntry.file "a.patch" "",
    FSEntry.dir "sub" [FSEntry.file "b.patch" ""]] = ["a.patch", "sub/b.patch"] := by
  simp [listFiles]
example : resolveArgument ["x11-libs"] ["x11-libs/vte"] "vte" = some ["x11-libs/vte"] := by
  decide
example : checkCategoryPackage "r" "app-misc/foo"
    { filesdir := some [FSEntry.file "foo.patch" ""],
      dirListing := ["foo-1.0.ebuild"],
      fileContent := fun _ => "$\x7bP\x7d.patch" } = ["r/app-misc/foo/files/foo.patch"] := by
  simp [checkCategoryPackage, listFiles, normalizedTexts, qualify]
  decide

/-! ## Helper lemmas -/

theorem isPrefixOf_eq_true_iff (p l : List Char) :
    p.isPrefixOf l = true ↔ ∃ u, l = p ++ u := by
  induction p generalizing l with
  | nil => simp [List.isPrefixOf]
  | cons a p ih =>
    cases l with
    | nil => simp [List.isPrefixOf]
    | cons b t =>
      simp only [List.isPrefixOf, Bool.and_eq_true, beq_iff_eq, ih]
      constructor
      · rintro ⟨rfl, u, rfl⟩
        exact ⟨u, rfl⟩
      · rintro ⟨u, hu⟩
        rw [List.cons_append] at hu
        cases hu
        exact ⟨rfl, u, rfl⟩

theorem isPrefixOf_append_self (p u : List Char) : p.isPrefixOf (p ++ u) = true :=
  (isPrefixOf_eq_true_iff p (p ++ u)).mpr ⟨u, rfl⟩

theorem containsSub_iff (pat l : List Char) :
    containsSub pat l = true ↔ ∃ s u, l = s ++ pat ++ u := by
  induction l with
  | nil =>
    simp only [containsSub, List.isEmpty_iff]
    constructor
    · rintro rfl
      exact ⟨[], [], rfl⟩
    · rintro ⟨s, u, hsu⟩
      rcases List.append_eq_nil.mp (List.append_eq_nil.mp hsu.symm).1 with ⟨-, h⟩
      exact h
  | cons c t ih =>
    simp only [containsSub, Bool.or_eq_true, isPrefixOf_eq_true_iff, ih]
    constructor
    · rintro (⟨u, hu⟩ | ⟨s, u, hsu⟩)
      · exact ⟨[], u, by simpa using hu⟩
      · exact ⟨c :: s, u, by simp [hsu]⟩
    · rintro ⟨s, u, hsu⟩
      cases s with
      | nil => exact Or.inl ⟨u, by simpa using hsu⟩
      | cons a s =>
        rw [List.cons_append, List.cons_append] at hsu
        cases hsu
        exact Or.inr ⟨s, u, rfl⟩

/-- String extensionality, specialized. -/
theorem str_ext {a b : String} (h : a.data = b.data) : a = b := String.ext h

/-- The source chain of replacements and the spec's description of it agree
definitionally. -/
theorem processEbuild_eq_specNormalize (pn eb text : String) :
    processEbuild pn eb text
      = specNormalize pn (pfOf eb) (pvrOf pn eb) (pvOf pn eb) (pOf pn eb) text := rfl

theorem stripDotEbuild_append (A : List Char) : stripDotEbuild (A ++ sufEb) = A := by
  have hsuf : sufEb.isSuffixOf (A ++ sufEb) = true := by simp
  unfold stripDotEbuild
  rw [if_pos hsuf, List.length_append]
  have h : A.length + sufEb.length - sufEb.length = A.length := by omega
  rw [h, List.take_left]

theorem stripLead_append (pre u : List Char) : stripLead pre (pre ++ u) = u := by
  unfold stripLead
  rw [if_pos (isPrefixOf_append_self pre u), List.drop_left]

theorem stripDotEbuild_of_no_match {l : List Char}
    (h : endsWithDollar sufEb l = false) : stripDotEbuild l = l := by
  rw [endsWithDollar] at h
  rcases Bool.or_eq_false_iff.mp h with ⟨h1, h2⟩
  unfold stripDotEbuild
  rw [if_neg (by simp [h1]), if_neg (by simp [h2])]

theorem replAux_head_not_mem {c : Char} (pat rep : List Char) {l : List Char}
    (h : c ∉ l) : replAux (c :: pat) rep 0 l = l := by
  induction l with
  | nil => rfl
  | cons b t ih =>
    rw [List.mem_cons, not_or] at h
    have hb : (c == b) = false := beq_eq_false_iff_ne.mpr h.1
    show (if (c :: pat).isPrefixOf (b :: t) && !(c :: pat).isEmpty then
        rep ++ replAux (c :: pat) rep ((c :: pat).length - 1) t
      else b :: replAux (c :: pat) rep 0 t) = b :: t
    rw [List.isPrefixOf, hb, Bool.false_and, Bool.false_and, if_neg (by simp)]
    rw [ih h.2]

theorem qualify_inj {base cp a b : String}
    (h : qualify base cp a = qualify base cp b) : a = b := by
  have hd := congrArg String.data h
  simp only [qualify, String.data_append, List.append_assoc,
    List.append_cancel_left_eq] at hd
  exact str_ext hd

theorem isLeafPath_cons {e : FSEntry} {es : List FSEntry} {f : String}
    (h : IsLeafPath es f) : IsLeafPath (e :: es) f := by
  cases h with
  | file h => exact IsLeafPath.file (List.mem_cons_of_mem _ h)
  | dir h hd => exact IsLeafPath.dir (List.mem_cons_of_mem _ h) hd

theorem isLeafPath_of_mem_listFiles :
    ∀ es : List FSEntry, ∀ f : String, f ∈ listFiles es → IsLeafPath es f := by
  intro es
  induction es using listFiles.induct with
  | case1 =>
    intro f hf
    simp [listFiles] at hf
  | case2 n c rest ih =>
    intro f hf
    rw [listFiles] at hf
    rcases List.mem_cons.mp hf with hf | hf
    · subst hf
      exact IsLeafPath.file (List.mem_cons_self _ _)
    · exact isLeafPath_cons (ih f hf)
  | case3 n sub rest ihsub ihrest =>
    intro f hf
    rw [listFiles] at hf
    rcases List.mem_append.mp hf with hf | hf
    · rcases List.mem_map.mp hf with ⟨d, hd, rfl⟩
      exact IsLeafPath.dir (List.mem_cons_self _ _) (ihsub d hd)
    · exact isLeafPath_cons (ihrest f hf)

theorem mem_listFiles_of_file_mem {es : List FSEntry} {n c : String}
    (h : FSEntry.file n c ∈ es) : n ∈ listFiles es := by
  induction es with
  | nil => cases h
  | cons e rest ih =>
    rcases List.mem_cons.mp h with he | he
    · subst he
      rw [listFiles]
      exact List.mem_cons_self _ _
    · cases e with
      | file n' c' =>
        rw [listFiles]
        exact List.mem_cons_of_mem _ (ih he)
      | dir n' sub' =>
        rw [listFiles]
        exact List.mem_append_right _ (ih he)

theorem mem_listFiles_of_dir_mem {es : List FSEntry} {n d : String}
    {sub : List FSEntry} (h : FSEntry.dir n sub ∈ es) (hd : d ∈ listFiles sub) :
    (n ++ "/" ++ d) ∈ listFiles es := by
  induction es with
  | nil => cases h
  | cons e rest ih =>
    rcases List.mem_cons.mp h with he | he
    · subst he
      rw [listFiles]
      exact List.mem_append_left _ (List.mem_map.mpr ⟨d, hd, rfl⟩)
    · cases e with
      | file n' c' =>
        rw [listFiles]
        exact List.mem_cons_of_mem _ (ih he)
      | dir n' sub' =>
        rw [listFiles]
        exact List.mem_append_right _ (ih he)

theorem normalizedTexts_congr (cp : String) {p q : Package}
    (h2 : p.dirListing = q.dirListing)
    (h3 : ∀ e ∈ listEbuilds p.dirListing, p.fileContent e = q.fileContent e) :
    normalizedTexts cp p = normalizedTexts cp q := by
  unfold normalizedTexts
  rw [← h2]
  exact List.map_congr_left (fun e he => by rw [h3 e he])

theorem checkCategoryPackage_congr (base cp : String) {p q : Package}
    (h : obsEq p q) :
    checkCategoryPackage base cp p = checkCategoryPackage base cp q := by
  obtain ⟨h1, h2, h3⟩ := h
  unfold checkCategoryPackage
  rw [h1, normalizedTexts_congr cp h2 h3]

/-! ## Claim C3 -/

/-- C3: for a recipe file `name-1.2.3-r4.ebuild` of a package with base name
`name`, the derived values are PF = `name-1.2.3-r4`, PVR = `1.2.3-r4`,
PV = `1.2.3` and P = `name-1.2.3` (PN is the base name `name` itself, the
input of the derivation at source line 167); for a recipe file with no
revision suffix, `name-1.2.3.ebuild`, PVR and PV are both `1.2.3`. -/
theorem identity_values (name : String) :
    pfOf (name ++ "-1.2.3-r4.ebuild") = name ++ "-1.2.3-r4"
      ∧ pvrOf name (name ++ "-1.2.3-r4.ebuild") = "1.2.3-r4"
      ∧ pvOf name (name ++ "-1.2.3-r4.ebuild") = "1.2.3"
      ∧ pOf name (name ++ "-1.2.3-r4.ebuild") = name ++ "-1.2.3"
      ∧ pvrOf name (name ++ "-1.2.3.ebuild") = "1.2.3"
      ∧ pvOf name (name ++ "-1.2.3.ebuild") = "1.2.3" := by
  have hdata : (name ++ "-1.2.3-r4.ebuild").data
      = (name.data ++ "-1.2.3-r4".data) ++ sufEb := by
    rw [String.data_append, List.append_assoc]
    rfl
  have hpf : pfOf (name ++ "-1.2.3-r4.ebuild") = name ++ "-1.2.3-r4" := by
    apply str_ext
    show stripDotEbuild (name ++ "-1.2.3-r4.ebuild").data = (name ++ "-1.2.3-r4").data
    rw [hdata, stripDotEbuild_append, String.data_append]
  have hsplit : name.data ++ "-1.2.3-r4".data = (name.data ++ ['-']) ++ "1.2.3-r4".data := by
    rw [List.append_assoc]
    rfl
  have hpvr : pvrOf name (name ++ "-1.2.3-r4.ebuild") = "1.2.3-r4" := by
    apply str_ext
    show stripLead (name.data ++ ['-']) (pfOf (name ++ "-1.2.3-r4.ebuild")).data
        = "1.2.3-r4".data
    rw [hpf, String.data_append, hsplit, stripLead_append]
  have hpv : pvOf name (name ++ "-1.2.3-r4.ebuild") = "1.2.3" := by
    apply str_ext
    show stripRevision (pvrOf name (name ++ "-1.2.3-r4.ebuild")).data = "1.2.3".data
    rw [hpvr]
    decide
  have hdata2 : (name ++ "-1.2.3.ebuild").data = (name.data ++ "-1.2.3".data) ++ sufEb := by
    rw [String.data_append, List.append_assoc]
    rfl
  have hpf2 : pfOf (name ++ "-1.2.3.ebuild") = name ++ "-1.2.3" := by
    apply str_ext
    show stripDotEbuild (name ++ "-1.2.3.ebuild").data = (name ++ "-1.2.3").data
    rw [hdata2, stripDotEbuild_append, String.data_append]
  have hsplit2 : name.data ++ "-1.2.3".data = (name.data ++ ['-']) ++ "1.2.3".data := by
    rw [List.append_assoc]
    rfl
  have hpvr2 : pvrOf name (name ++ "-1.2.3.ebuild") = "1.2.3" := by
    apply str_ext
    show stripLead (name.data ++ ['-']) (pfOf (name ++ "-1.2.3.ebuild")).data = "1.2.3".data
    rw [hpf2, String.data_append, hsplit2, stripLead_append]
  have hpv2 : pvOf name (name ++ "-1.2.3.ebuild") = "1.2.3" := by
    apply str_ext
    show stripRevision (pvrOf name (name ++ "-1.2.3.ebuild")).data = "1.2.3".data
    rw [hpvr2]
    decide
  have hp : pOf name (name ++ "-1.2.3-r4.ebuild") = name ++ "-1.2.3" := by
    unfold pOf
    rw [hpv]
    apply str_ext
    simp [List.append_assoc]
  exact ⟨hpf, hpvr, hpv, hp, hpvr2, hpv2⟩

/-! ## Claim C10 -/

/-- C10: when PF does not begin with the package base name followed by a
dash, the substitution at source line 169 matches nothing, so PVR equals PF;
the code has no error path here (the derivation is a total function and
normalization proceeds). -/
theorem pvr_eq_pf_of_unmatched_pn (pn eb : String)
    (h : (pn ++ "-").data.isPrefixOf (pfOf eb).data = false) :
    pvrOf pn eb = pfOf eb := by
  have heq : (pn ++ "-").data = pn.data ++ ['-'] := rfl
  rw [heq] at h
  unfold pvrOf stripLead
  rw [h]
  show (⟨(pfOf eb).data⟩ : String) = pfOf eb
  rfl

theorem pvr_eq_pf_of_unmatched_pn_witness :
    pvrOf "foo" "bar-1.0.ebuild" = pfOf "bar-1.0.ebuild" :=
  pvr_eq_pf_of_unmatched_pn "foo" "bar-1.0.ebuild" (by decide)

/-! ## Claim C6 -/

/-- Counterexample to C6 as stated: called with an empty package base name
and a recipe name not ending in the recipe suffix, `_process_ebuild` signals
nothing and produces an ordinary normalized text (here P derives to
`-foo.txt` and is substituted for `$P`). -/
theorem normalizer_never_fails_counterexample :
    processEbuild "" "foo.txt" "$P" = "-foo.txt" := by decide

/-- C6 (amended): the code performs no validation of identity inputs: for any
package base name (empty or not) and a recipe name without the `.ebuild`
suffix, PF is silently the whole recipe name and normalization still produces
the usual quote-stripping-and-substitution result; no `InvalidRecipeIdentity`
signal exists anywhere in `_process_ebuild`. -/
theorem normalizer_no_validation (pn eb text : String)
    (h : endsWithDollar sufEb eb.data = false) :
    pfOf eb = eb
      ∧ processEbuild pn eb text
          = specNormalize pn eb (pvrOf pn eb) (pvOf pn eb) (pOf pn eb) text := by
  have hpf : pfOf eb = eb := by
    apply str_ext
    show stripDotEbuild eb.data = eb.data
    exact stripDotEbuild_of_no_match h
  refine ⟨hpf, ?_⟩
  rw [processEbuild_eq_specNormalize pn eb text, hpf]

theorem normalizer_no_validation_witness :
    pfOf "foo-1.0.txt" = "foo-1.0.txt"
      ∧ processEbuild "" "foo-1.0.txt" "abc"
          = specNormalize "" "foo-1.0.txt" (pvrOf "" "foo-1.0.txt") (pvOf "" "foo-1.0.txt")
              (pOf "" "foo-1.0.txt") "abc" :=
  normalizer_no_validation "" "foo-1.0.txt" "abc" (by decide)

/-! ## Claim C2 -/

/-- C2 (amended): the normalized text is the raw text with double quotes
removed followed by the ten literal substring replacements in the source's
fixed order (braced then unbraced form of PN, PF, PVR, PV, P); and, provided
the derivation of P introduces no dollar character (no dollar in the base
name or in PV), normalizing the text consisting of the braced form of P
wrapped in double quotes yields the literal value of P with no surrounding
quote characters. -/
theorem normalize_pipeline (pn eb text : String) :
    processEbuild pn eb text
      = specNormalize pn (pfOf eb) (pvrOf pn eb) (pvOf pn eb) (pOf pn eb) text
    ∧ ('$' ∉ pn.data → '$' ∉ (pvOf pn eb).data →
        processEbuild pn eb "\x22$\x7bP\x7d\x22" = pOf pn eb) := by
  refine ⟨processEbuild_eq_specNormalize pn eb text, ?_⟩
  intro h1 h2
  have hp : '$' ∉ (pOf pn eb).data := by
    have hd : (pOf pn eb).data = pn.data ++ '-' :: (pvOf pn eb).data := by
      simp [pOf]
    rw [hd]
    simp only [List.mem_append, List.mem_cons]
    push_neg
    exact ⟨h1, by decide, h2⟩
  have key : processEbuild pn eb "\x22$\x7bP\x7d\x22"
      = ⟨replAux ('$' :: "P".data) (pOf pn eb).data 0 ((pOf pn eb).data ++ [])⟩ := rfl
  rw [key, List.append_nil, replAux_head_not_mem _ _ hp]

/-- Counterexample to C2 as stated: for the pathological identity with base
name `$P` the final unbraced replacement rewrites inside the substituted
value of P, so normalizing the quoted braced form of P does not yield P. -/
theorem normalize_pipeline_counterexample :
    processEbuild "$P" "$P-1.0.ebuild" "\x22$\x7bP\x7d\x22" ≠ pOf "$P" "$P-1.0.ebuild" := by
  decide

theorem normalize_pipeline_witness :
    processEbuild "foo" "foo-1.0.ebuild" "\x22$\x7bP\x7d\x22" = pOf "foo" "foo-1.0.ebuild" :=
  (normalize_pipeline "foo" "foo-1.0.ebuild" "\x22$\x7bP\x7d\x22").2 (by decide) (by decide)

/-! ## Claim C1 -/

/-- C1: when the package's files directory exists and its recipe set is
non-empty, a file enumerated under the files directory is reported exactly
when its relative path occurs as a literal contiguous substring in none of
the normalized recipe texts; the path is matched as literal text (the
substring property is stated as an explicit list split, with no
regular-expression interpretation). -/
theorem reported_iff_unreferenced (base cp : String) (pkg : Package)
    (es : List FSEntry) (f : String)
    (hfd : pkg.filesdir = some es)
    (_hne : listEbuilds pkg.dirListing ≠ [])
    (hf : f ∈ listFiles es) :
    qualify base cp f ∈ checkCategoryPackage base cp pkg
      ↔ ∀ t ∈ normalizedTexts cp pkg, ¬ ∃ s u, t.data = s ++ f.data ++ u := by
  simp only [checkCategoryPackage, hfd]
  rw [List.mem_map]
  constructor
  · rintro ⟨a, ha, hqa⟩
    have haf : a = f := qualify_inj hqa
    subst haf
    rw [List.mem_filter] at ha
    intro t ht hex
    have hall := (List.all_eq_true.mp ha.2) t ht
    rw [Bool.not_eq_true'] at hall
    rw [(containsSub_iff a.data t.data).symm] at hex
    rw [hall] at hex
    cases hex
  · intro h
    refine ⟨f, ?_, rfl⟩
    rw [List.mem_filter]
    refine ⟨hf, ?_⟩
    rw [List.all_eq_true]
    intro t ht
    rw [Bool.not_eq_true']
    cases hct : containsSub f.data t.data
    · rfl
    · exact absurd ((containsSub_iff f.data t.data).mp hct) (h t ht)

theorem reported_iff_unreferenced_witness :
    (qualify "r" "app-misc/foo" "foo.patch"
        ∈ checkCategoryPackage "r" "app-misc/foo" pkgW1)
      ↔ ∀ t ∈ normalizedTexts "app-misc/foo" pkgW1,
          ¬ ∃ s u, t.data = s ++ "foo.patch".data ++ u :=
  reported_iff_unreferenced "r" "app-misc/foo" pkgW1 [FSEntry.file "foo.patch" ""]
    "foo.patch" rfl (by decide) (by simp [listFiles])

/-! ## Claim C4 -/

/-- C4: when the package has no `files` directory (the path is missing or not
a directory), the guarded enumeration contributes nothing: the scan of that
package returns the empty list without error (source lines 63-67). -/
theorem no_filesdir_contributes_nothing (base cp : String) (pkg : Package)
    (h : pkg.filesdir = none) : checkCategoryPackage base cp pkg = [] := by
  simp [checkCategoryPackage, h]

theorem no_filesdir_contributes_nothing_witness :
    checkCategoryPackage "r" "c/a" pkgW4 = [] :=
  no_filesdir_contributes_nothing "r" "c/a" pkgW4 rfl

/-! ## Claim C9 -/

/-- C9: with a `files` directory present but no entry of the package listing
ending in the recipe suffix, the set of normalized texts is empty, so every
enumerated auxiliary file is reported, qualified, in enumeration order. -/
theorem no_recipes_all_reported (base cp : String) (pkg : Package)
    (es : List FSEntry) (hfd : pkg.filesdir = some es)
    (heb : listEbuilds pkg.dirListing = []) :
    checkCategoryPackage base cp pkg
      = (listFiles es).map (fun f => qualify base cp f) := by
  simp [checkCategoryPackage, hfd, normalizedTexts, heb]

theorem no_recipes_all_reported_witness :
    checkCategoryPackage "r" "c/a" pkgW9
      = (listFiles [FSEntry.file "f.txt" "",
          FSEntry.dir "sub" [FSEntry.file "g.txt" ""]]).map (fun f => qualify "r" "c/a" f) :=
  no_recipes_all_reported "r" "c/a" pkgW9 _ rfl (by decide)

/-! ## Claim C7 -/

/-- C7: the enumeration of an existing directory returns exactly the
non-directory leaves reachable under it: membership in the result is
equivalent to being a leaf path, so subdirectories themselves never appear
and every leaf is reported relative to the root with all intermediate
directory names as segments. -/
theorem listFiles_mem_iff (es : List FSEntry) (f : String) :
    f ∈ listFiles es ↔ IsLeafPath es f := by
  constructor
  · exact isLeafPath_of_mem_listFiles es f
  · intro h
    induction h with
    | file h => exact mem_listFiles_of_file_mem h
    | dir h _ ih => exact mem_listFiles_of_dir_mem h ih

/-! ## Claim C8 -/

/-- C8: the scan result is a deterministic function of the tree state the
scan observes: two category scans over package lists presenting identical
directory listings, files trees and recipe contents return equal result
lists (hence the same unordered set); no state is retained between
packages. -/
theorem scan_deterministic (base : String) (ps qs : List (String × Package))
    (h : List.Forall₂ (fun a b => a.1 = b.1 ∧ obsEq a.2 b.2) ps qs) :
    checkCategory base ps = checkCategory base qs := by
  induction h with
  | nil => rfl
  | cons hab _ ih =>
    unfold checkCategory at ih ⊢
    rw [List.flatMap_cons, List.flatMap_cons, ih, hab.1,
      checkCategoryPackage_congr base _ hab.2]

theorem scan_deterministic_witness :
    checkCategory "r" [("c/a", pkgW8a)] = checkCategory "r" [("c/a", pkgW8b)] :=
  scan_deterministic "r" _ _
    (List.Forall₂.cons ⟨rfl, rfl, rfl, by decide⟩ List.Forall₂.nil)

/-! ## Claim C5 -/

/-- Counterexample to C5 as stated: `vte` is not a category, not a
category/package pair, and not the bare package name of any indexed pair
(the only package name is `vtedemo`), yet resolution does not fail: because
`/vte` occurs inside `x11-libs/vtedemo`, the unanchored test at source line
154 succeeds while the anchored expansion at line 155 matches nothing, so
the argument silently resolves to the empty list instead of a usage error. -/
theorem resolve_silent_empty_expansion :
    resolveArgument ["x11-libs"] ["x11-libs/vtedemo"] "vte" = some []
      ∧ "vte" ∉ ["x11-libs"]
      ∧ "vte" ∉ ["x11-libs/vtedemo"]
      ∧ basename "x11-libs/vtedemo" ≠ "vte" := by decide

/-- C5 (amended): resolution fails with a usage error exactly when the
argument is no category, no exact category/package pair, and a slash
followed by the argument occurs as a literal substring of no indexed pair;
when that substring test succeeds (but the category and exact-pair tests
fail), the argument resolves to the possibly empty list of pairs ending in a
slash followed by the argument, so an argument matching only the interior of
a package name is silently dropped rather than rejected. -/
theorem resolveArgument_cases (cats cps : List String) (arg : String) :
    (resolveArgument cats cps arg = none
      ↔ arg ∉ cats ∧ arg ∉ cps
          ∧ ∀ cp ∈ cps, ¬ ∃ s u, cp.data = s ++ ("/" ++ arg).data ++ u)
    ∧ (arg ∉ cats → arg ∉ cps →
        (∃ cp ∈ cps, ∃ s u, cp.data = s ++ ("/" ++ arg).data ++ u) →
        resolveArgument cats cps arg
          = some (cps.filter (fun cp => endsWithDollar ("/" ++ arg).data cp.data))) := by
  constructor
  · constructor
    · intro h
      unfold resolveArgument at h
      by_cases h1 : arg ∈ cats
      · rw [if_pos h1] at h
        exact Option.noConfusion h
      rw [if_neg h1] at h
      by_cases h2 : arg ∈ cps
      · rw [if_pos h2] at h
        exact Option.noConfusion h
      rw [if_neg h2] at h
      by_cases h3 : cps.any (fun cp => containsSub ("/" ++ arg).data cp.data) = true
      · rw [if_pos h3] at h
        exact Option.noConfusion h
      · refine ⟨h1, h2, ?_⟩
        intro cp hcp hex
        rw [List.any_eq_true] at h3
        exact h3 ⟨cp, hcp, (containsSub_iff _ _).mpr hex⟩
    · rintro ⟨h1, h2, h3⟩
      have h3' : ¬ cps.any (fun cp => containsSub ("/" ++ arg).data cp.data) = true := by
        rw [List.any_eq_true]
        rintro ⟨cp, hcp, hc⟩
        exact h3 cp hcp ((containsSub_iff _ _).mp hc)
      unfold resolveArgument
      rw [if_neg h1, if_neg h2, if_neg h3']
  · intro h1 h2 hex
    rcases hex with ⟨cp, hcp, hsp⟩
    have h3 : cps.any (fun cp => containsSub ("/" ++ arg).data cp.data) = true :=
      List.any_eq_true.mpr ⟨cp, hcp, (containsSub_iff _ _).mpr hsp⟩
    unfold resolveArgument
    rw [if_neg h1, if_neg h2, if_pos h3]

theorem resolveArgument_cases_witness :
    resolveArgument ["x11-libs"] ["x11-libs/vtedemo"] "nosuch" = none :=
  (resolveArgument_cases ["x11-libs"] ["x11-libs/vtedemo"] "nosuch").1.mpr
    (by
      refine ⟨by decide, by decide, ?_⟩
      intro cp hcp
      have hc : cp = "x11-libs/vtedemo" := by simpa using hcp
      subst hc
      rw [(containsSub_iff ("/" ++ "nosuch").data "x11-libs/vtedemo".data).symm]
      decide)

end FilesdirCheck
